import Mathlib

/-!
Verification of the ktml-check thread reconstruction and contextual
re-classification engine.

The definitions below are a shallow embedding of the Python sources:
  - `src/ml_check/classifier.py` (Category, SimpleClassifier)
  - `src/ml_check/message.py`    (Message, generate_patch_name, hash/eq)
  - `src/ml_check/patch_set.py`  (PatchSet, filter_thread, reclassify)
  - `src/ml_check/kteam_mbox.py` (KTeamMbox._all_threads)

Python strings are modelled as Lean `String`, datetimes as `Nat`
timestamps (datetimes with timezone are totally ordered), Python `None`
as `Option`.  The external `unidiff` library (used only through
`PatchSet(message.body)` inside `__contains_patch`) is modelled as an
oracle `containsPatch : String → Bool` carried by the classifier.
-/

namespace MLCheck

/-- Embeds `classifier.Category` (an `enum.Flag` whose members are the six
distinct singleton flags; every use in the sources tests a single value). -/
inductive Category
  | NotPatch
  | PatchCoverLetter
  | PatchN
  | PatchAck
  | PatchNak
  | PatchApplied
  deriving DecidableEq

/-- Embeds `message.Message`.  Field names follow the source.  The
`timestamp` is a `Nat` (datetimes with timezone are totally ordered and only
compared); `subject` and `in_reply_to` may be `None` in the source. -/
structure Message where
  subject : Option String
  message_id : String
  in_reply_to : Option String
  references : List String
  timestamp : Nat
  body : String
  sender : String
  category : Category
  deriving DecidableEq

/-- Category mutation `message.category = c` (the only mutation the source
performs after construction). -/
def setCat (m : Message) (c : Category) : Message :=
  { m with category := c }

/-- All fields of a message except the mutable `category`. -/
def msgCore (m : Message) : Option String × String × Option String × List String × Nat × String × String :=
  (m.subject, m.message_id, m.in_reply_to, m.references, m.timestamp, m.body, m.sender)

/-- Embeds `Message.__hash__`: Python hashes the 4-tuple
`(subject, message_id, in_reply_to, timestamp)`; we model the hash by the
tuple itself (Python's tuple hash is a function of exactly this data). -/
def msgHash (m : Message) : Option String × String × Option String × Nat :=
  (m.subject, m.message_id, m.in_reply_to, m.timestamp)

/-- Embeds `Message.__eq__`: message ids alone determine equality. -/
def msgEq (a b : Message) : Bool :=
  a.message_id == b.message_id

/-- Python truthiness of an optional string (`None` and the empty string are
falsy); used wherever the source writes `if message.in_reply_to:` or
`if not self.subject:`. -/
def strTruthy : Option String → Bool
  | none => false
  | some s => !s.isEmpty

/-! ### Character-list string primitives

The Python operations `in`, `startswith` and `lower` are modelled on the
character lists underlying `String`, so that all concrete instances reduce
in the kernel. -/

/-- `beginsWith l pat` is true when `pat` is an initial segment of `l`
(`str.startswith`). -/
def beginsWith : List Char → List Char → Bool
  | _, [] => true
  | [], _ :: _ => false
  | a :: as, b :: bs => a == b && beginsWith as bs

/-- `containsL hay pat` is true when `pat` occurs contiguously in `hay`
(Python `pat in hay`). -/
def containsL : List Char → List Char → Bool
  | [], pat => beginsWith [] pat
  | hay@(_ :: tl), pat => beginsWith hay pat || containsL tl pat

/-- `s.lower()` (ASCII case folding, which is what the source's subjects
exercise). -/
def lowerStr (s : String) : String :=
  String.mk (s.data.map Char.toLower)

/-- Python `pat in hay` on strings. -/
def strHas (hay pat : String) : Bool :=
  containsL hay.data pat.data

/-- Python `hay.startswith(pat)`. -/
def strStarts (hay pat : String) : Bool :=
  beginsWith hay.data pat.data

/-! ### SimpleClassifier -/

/-- Embeds `SimpleClassifier`.  The single field models the external
`unidiff` parse in `__contains_patch`: `containsPatch body` is true exactly
when `PatchSet(body)` yields at least one parsed file (diff-parse failures
are swallowed there and yield `false`). -/
structure SimpleClassifier where
  containsPatch : String → Bool

/-- The five SRU template phrases of `__is_cover_letter`. -/
def sruTemplate : List String :=
  ["[Impact]", "[Fix]", "[Test]", "[Test Plan]", "[Where problems could occur]"]

/-- Embeds `SimpleClassifier.__is_cover_letter`: at least two of the five
template phrases occur in the body (case sensitive, as in the source). -/
def isCoverLetter (m : Message) : Bool :=
  decide (2 ≤ (sruTemplate.filter (fun s => strHas m.body s)).length)

/-- Embeds `SimpleClassifier.__subject_looks_like_patch`: the regex
`\[?(patch|sru|ubuntu|pull)` with `re.search` and `re.IGNORECASE`.  Because
the leading `\[?` is optional, a search match occurs exactly when one of the
four tokens occurs case-insensitively anywhere in the subject. -/
def subjectLooksLikePatch (m : Message) : Bool :=
  match m.subject with
  | none => false
  | some s =>
      strHas (lowerStr s) "patch" || strHas (lowerStr s) "sru" ||
      strHas (lowerStr s) "ubuntu" || strHas (lowerStr s) "pull"

/-- Embeds `SimpleClassifier.__is_git_send_email`. -/
def isGitSendEmail (m : Message) : Bool :=
  strHas m.message_id "git-send-email"

/-- Embeds `SimpleClassifier.__is_patch`.  The source initialises
`is_patch = False` and then runs
`if not self.__subject_looks_like_patch(message): is_patch = False`,
which re-assigns `False` to an already-`False` variable in both cases; the
subject check therefore has no effect on the result, and the three
remaining signals are tried in order.  The `let` chain mirrors the source's
sequence of conditional re-assignments. -/
def isPatch (c : SimpleClassifier) (m : Message) : Bool :=
  let p0 : Bool := false
  let p1 : Bool := if !subjectLooksLikePatch m then false else p0
  let p2 : Bool := if !p1 then isGitSendEmail m else p1
  let p3 : Bool := if !p2 then c.containsPatch m.body else p2
  let p4 : Bool := if !p3 then isCoverLetter m else p3
  p4

/-- Embeds `SimpleClassifier.get_category`. -/
def getCategory (c : SimpleClassifier) (m : Message) : Category :=
  let isCover := isCoverLetter m
  let isPat := isPatch c m
  let isAck :=
    match m.subject with
    | none => false
    | some s => strStarts (lowerStr s) "ack"
  let isNak :=
    match m.subject with
    | none => false
    | some s => strStarts (lowerStr s) "nak" || strStarts (lowerStr s) "nac"
  let isApplied :=
    match m.subject with
    | none => false
    | some s => strStarts (lowerStr s) "applied"
  if isApplied then Category.PatchApplied
  else if isNak then Category.PatchNak
  else if isAck then Category.PatchAck
  else if isPat then
    if isCover then Category.PatchCoverLetter else Category.PatchN
  else Category.NotPatch

/-! ### Stable sorting by timestamp

Python `sorted` is a stable ascending sort driven by `Message.__lt__`
(comparison of timestamps).  We model it by stable insertion sort keyed by
a timestamp projection, generic so that it also serves index/message
pairs. -/

/-- Stable insertion: the new element goes after all existing elements with
a key not larger than its own, as Python stable sort places it. -/
def insertBy {α : Type} (key : α → Nat) (a : α) : List α → List α
  | [] => [a]
  | x :: xs => if key a < key x then a :: x :: xs else x :: insertBy key a xs

/-- Stable insertion sort by key (models Python `sorted`). -/
def sortBy {α : Type} (key : α → Nat) : List α → List α
  | [] => []
  | x :: xs => insertBy key x (sortBy key xs)

/-- Sorting a message list by timestamp. -/
def sortByTs (l : List Message) : List Message :=
  sortBy Message.timestamp l

/-! ### PatchSet -/

/-- Embeds `PatchSet.filter_thread`: keep the messages whose category is the
requested one, sorted by timestamp.  (In the source `categories` is always a
singleton `Flag`, whose membership test is equality; the additional
`m is not None` filter is vacuous on a list of messages.) -/
def filterThread (thread : List Message) (cat : Category) : List Message :=
  sortByTs (thread.filter (fun m => m.category == cat))

/-- Index/message pairs of the positions of `t` (from position `i`) whose
category is `cat`; used to model the object references held by the
`patches` `cached_property`. -/
def idxFilter (cat : Category) : List Message → Nat → List (Nat × Message)
  | [], _ => []
  | m :: rest, i =>
      if m.category == cat then (i, m) :: idxFilter cat rest (i + 1)
      else idxFilter cat rest (i + 1)

/-- The categories of the `elif message.category in (PatchAck, PatchNak,
PatchApplied)` branch. -/
def ackKinds : List Category :=
  [Category.PatchAck, Category.PatchNak, Category.PatchApplied]

/-- The categories accepted for the parent of an ack/nak/applied. -/
def parentKinds : List Category :=
  [Category.PatchCoverLetter, Category.PatchN]

/-- Membership of a category in a tuple of categories (Python `in`). -/
def categoryIn (c : Category) (cats : List Category) : Bool :=
  cats.contains c

/-- Embeds the parent lookup
`next(iter([m for m in self.all_messages if m.message_id == message.in_reply_to]), None)`. -/
def findReply (ctx : List Message) (r : String) : Option Message :=
  ctx.find? (fun m => m.message_id == r)

/-- The `new_category` computed by one iteration of the structural
reclassification loop for message `m`, with `ctx` the current state of the
whole thread list (the source mutates messages in place while iterating, so
the parent lookup observes already-updated earlier messages).  `γ` is
`classifier.get_category`, `epochId` the message id of the epoch (the
source's `message == epoch` compares message ids). -/
def newCatFor (γ : Message → Category) (epochId : String) (ctx : List Message)
    (m : Message) : Category :=
  if m.message_id == epochId then m.category
  else if m.category == Category.NotPatch then γ m
  else if m.category == Category.PatchCoverLetter then m.category
  else if m.category == Category.PatchN then
    if strTruthy m.in_reply_to && !(m.in_reply_to == some epochId) then
      Category.NotPatch
    else m.category
  else if categoryIn m.category ackKinds then
    if strTruthy m.in_reply_to then
      match m.in_reply_to with
      | some r =>
          match findReply ctx r with
          | some parent =>
              if !(categoryIn parent.category parentKinds) then
                Category.NotPatch
              else m.category
          | none => m.category
      | none => m.category
    else m.category
  else m.category

/-- One iteration of the structural loop body: update the category in
place. -/
def stepMsg (γ : Message → Category) (epochId : String) (ctx : List Message)
    (m : Message) : Message :=
  setCat m (newCatFor γ epochId ctx m)

/-- The structural pass of `PatchSet.__reclassify`: iterate over the thread
in order, updating each message in place.  `done` is the already-processed
prefix (final values), the result is the processed remainder; the current
full list seen by `stepMsg` is `done ++ m :: rest`. -/
def structGo (γ : Message → Category) (epochId : String) :
    List Message → List Message → List Message
  | _, [] => []
  | done, m :: rest =>
      let m' := stepMsg γ epochId (done ++ m :: rest) m
      m' :: structGo γ epochId (done ++ [m']) rest

/-- Embeds `PatchSet`.  `thread` holds the messages after construction
(`__init__` runs `__reclassify` to completion).  `patchesCache` models the
`patches` `functools.cached_property` when it was materialised during
`__reclassify` (it stores references to thread members, modelled as indices
into `thread`); `epochCache` models the always-materialised `epoch_patch`
`cached_property` (the structural pass never alters any message sharing the
epoch's message id, so caching the message value is faithful to caching the
object reference; see `structGo_epochId_mem`). -/
structure PatchSet where
  thread : List Message
  patchesCache : Option (List Nat)
  epochCache : Option Message

/-- `PatchSet.__reclassify` after its local pass: epoch determination
(`epoch_patch`) followed by the structural pass.  In `epoch_patch`, when no
cover letter exists the `self.patches` `cached_property` is materialised
*before* the structural pass runs and is never invalidated. -/
def mkFromLocal (γ : Message → Category) (localT : List Message) : PatchSet :=
  match (filterThread localT Category.PatchCoverLetter).head? with
  | some e =>
      { thread := structGo γ e.message_id [] localT
        patchesCache := none
        epochCache := some e }
  | none =>
      let pPairs := sortBy (fun p => p.2.timestamp) (idxFilter Category.PatchN localT 0)
      match pPairs.head? with
      | some p =>
          { thread := structGo γ p.2.message_id [] localT
            patchesCache := some (pPairs.map Prod.fst)
            epochCache := some p.2 }
      | none =>
          { thread := localT
            patchesCache := some (pPairs.map Prod.fst)
            epochCache := none }

/-- The local pass of `PatchSet.__reclassify`:
`for m in self.all_messages: m.category = classifier.get_category(m)`. -/
def localPass (γ : Message → Category) (thread : List Message) : List Message :=
  thread.map (fun m => setCat m (γ m))

/-- Embeds `PatchSet.__init__` (store the thread, then `__reclassify`). -/
def mkPatchSet (γ : Message → Category) (thread : List Message) : PatchSet :=
  mkFromLocal γ (localPass γ thread)

/-- The thread with final categories after `PatchSet` construction. -/
def reclassifyThread (γ : Message → Category) (thread : List Message) : List Message :=
  (mkPatchSet γ thread).thread

/-- The `patches` view: the cached list when it was materialised during
construction (reading the referenced thread members), otherwise the fresh
`sorted(self.filter_thread(self.thread, Category.PatchN))`. -/
def PatchSet.patches (ps : PatchSet) : List Message :=
  match ps.patchesCache with
  | some idxs => idxs.filterMap (fun i => ps.thread.get? i)
  | none => sortByTs (filterThread ps.thread Category.PatchN)

/-- The `epoch_patch` view (always cached during construction). -/
def PatchSet.epochPatch (ps : PatchSet) : Option Message :=
  ps.epochCache

/-- The `not_patches` view (first accessed after construction). -/
def PatchSet.notPatches (ps : PatchSet) : List Message :=
  filterThread ps.thread Category.NotPatch

/-- The `cover_letters` view (first accessed after construction). -/
def PatchSet.coverLetters (ps : PatchSet) : List Message :=
  filterThread ps.thread Category.PatchCoverLetter

/-- The `acks` view (first accessed after construction). -/
def PatchSet.acks (ps : PatchSet) : List Message :=
  filterThread ps.thread Category.PatchAck

/-- The `naks` view (first accessed after construction). -/
def PatchSet.naks (ps : PatchSet) : List Message :=
  filterThread ps.thread Category.PatchNak

/-- The `applieds` view (first accessed after construction). -/
def PatchSet.applieds (ps : PatchSet) : List Message :=
  filterThread ps.thread Category.PatchApplied

/-! ### generate_patch_name -/

/-- Drop leading underscores. -/
def dropLeadU : List Char → List Char
  | [] => []
  | ch :: t => if ch == '_' then dropLeadU t else ch :: t

/-- Python `str.strip("_")`: drop leading and trailing underscores. -/
def stripU (l : List Char) : List Char :=
  dropLeadU (dropLeadU l.reverse).reverse

/-- Embeds `Message.generate_patch_name`.  The guard `if not self.subject`
treats both `None` and the empty subject as absent; every non-alphanumeric
character of `subject + "__" + message_id` is replaced by an underscore
(`str.isalnum` modelled by `Char.isAlphanum`, exact on the ASCII alphabet),
then leading/trailing underscores are stripped. -/
def generatePatchName (m : Message) : Option String :=
  match m.subject with
  | none => none
  | some s =>
      if s.isEmpty then none
      else
        let rawName := s ++ "__" ++ m.message_id
        let mapped := rawName.data.map (fun ch => if ch.isAlphanum then ch else '_')
        some (String.mk (stripU mapped))

/-! ### KTeamMbox._all_threads (thread building)

The source builds `message_map` (a dict keyed by `message_id`, last writer
wins), then an undirected `networkx` graph whose nodes are the map's
messages, with an edge from each message to the known message it replies to
and to each known message its `references` name, and yields the connected
components sorted by timestamp.  The graph layer is external; connected
components are embedded as the fixpoint of a monotone one-step closure
under the adjacency relation. -/

/-- One dict assignment `message_map[m.message_id] = m`: replace the entry
with the same key (keys keep their first-insertion position in a Python
dict), or append. -/
def insertMsgDict (d : List Message) (m : Message) : List Message :=
  if d.any (fun x => x.message_id == m.message_id) then
    d.map (fun x => if x.message_id == m.message_id then m else x)
  else d ++ [m]

/-- The `message_map` contents in iteration order. -/
def messageMapList (input : List Message) : List Message :=
  input.foldl insertMsgDict []

/-- The directed edges added by `_all_threads`: from `a` to the mapped
message `b` when `a.in_reply_to` is `b`'s id or `b`'s id occurs in
`a.references`. -/
def rawEdge (a b : Message) : Bool :=
  (a.in_reply_to == some b.message_id) || a.references.contains b.message_id

/-- Undirected adjacency of the thread graph. -/
def adjB (a b : Message) : Bool :=
  rawEdge a b || rawEdge b a

/-- Membership by node identity (`networkx` node equality is
`Message.__eq__`, i.e. message-id equality). -/
def idMem (x : Message) (s : List Message) : Bool :=
  s.any (fun y => y.message_id == x.message_id)

/-- One closure step: all nodes of `L` already in `s` or adjacent to a
member of `s`. -/
def compStep (L s : List Message) : List Message :=
  L.filter (fun x => idMem x s || s.any (fun y => adjB y x))

/-- Iterated closure. -/
def compIter (L : List Message) : Nat → List Message → List Message
  | 0, s => s
  | n + 1, s => compIter L n (compStep L s)

/-- The connected component of `m` in the thread graph over node list `L`:
`L.length` closure steps from the singleton seed always reach the
fixpoint. -/
def comp (L : List Message) (m : Message) : List Message :=
  compIter L L.length (L.filter (fun x => x.message_id == m.message_id))

/-- Canonical representatives: the nodes that are the first member of their
own component. -/
def compReps (L : List Message) : List Message :=
  L.filter (fun m => (comp L m).head? == some m)

/-- Embeds `KTeamMbox._all_threads`: one thread per connected component of
the message map, each sorted by timestamp ascending. -/
def allThreads (input : List Message) : List (List Message) :=
  let L := messageMapList input
  (compReps L).map (fun r => sortByTs (comp L r))

/-- The relation that one structural loop body step establishes between the
old and the new message: only the category changes, cover-letter status is
invariant, and PatchN is never introduced. -/
def stepRel (a b : Message) : Prop :=
  b = setCat a b.category ∧
  (b.category = Category.PatchCoverLetter ↔ a.category = Category.PatchCoverLetter) ∧
  (b.category = Category.PatchN → a.category = Category.PatchN)

/-! ## Concrete fixtures

`cNoDiff` instantiates the `unidiff` oracle: none of the concrete bodies
below (all empty) parses as a unified diff, so `PatchSet(body)` yields no
files and `__contains_patch` returns `False`. -/

def cNoDiff : SimpleClassifier := ⟨fun _ => false⟩

/-- A lone patch whose reply pointer dangles: locally PatchN (its message
id carries `git-send-email`), it becomes the epoch and is skipped by the
structural pass. -/
def msgSolo : Message :=
  ⟨some "[PATCH] foo", "git-send-email-1", some "zzz", [], 5, "", "s", Category.NotPatch⟩

/-- A subject with none of the patch tokens and a message id free of
`git-send-email`. -/
def msgPlain : Message :=
  ⟨some "Hello world", "<m1>", none, [], 1, "", "s", Category.NotPatch⟩

/-- A subject with none of the patch tokens but a `git-send-email` message
id. -/
def msgGse : Message :=
  ⟨some "Hello world", "git-send-email-123", none, [], 1, "", "s", Category.NotPatch⟩

/-- Subject gate satisfied, but no other patch signal. -/
def msgP1 : Message :=
  ⟨some "[PATCH] Fix bug", "<p1>", none, [], 1, "", "s", Category.NotPatch⟩

/-- Epoch of the two-message witness thread. -/
def msgEw : Message :=
  ⟨some "[PATCH 0/1] w", "git-send-email-w0", none, [], 1, "", "s", Category.NotPatch⟩

/-- Second patch of the witness thread, replying to the epoch. -/
def msgPw : Message :=
  ⟨some "[PATCH 1/1] w", "git-send-email-w1", some "git-send-email-w0", [], 2, "", "s",
    Category.NotPatch⟩

/-- Index of the first list member satisfying `p` (used to reason about the
source's first-match parent lookup positionally). -/
def findIdxFrom (p : Message → Bool) : List Message → Option Nat
  | [] => none
  | x :: t => if p x then some 0 else (findIdxFrom p t).map (· + 1)

/-- A present but empty subject (`if not self.subject` treats it as
absent). -/
def msgEmptySubj : Message :=
  ⟨some "", "<e1>", none, [], 1, "", "s", Category.NotPatch⟩

/-- First patch of the stale-cache thread (becomes the epoch). -/
def msgA2 : Message :=
  ⟨some "[PATCH 1/2] a", "git-send-email-a", none, [], 1, "", "s", Category.NotPatch⟩

/-- Second patch of the stale-cache thread; its reply pointer dangles, so
the structural pass demotes it after `patches` was cached. -/
def msgB2 : Message :=
  ⟨some "[PATCH 2/2] b", "git-send-email-b", some "zzz", [], 2, "", "s", Category.NotPatch⟩

/-- Epoch of the early-ack thread. -/
def msgE4 : Message :=
  ⟨some "[PATCH 0] e", "git-send-email-e", none, [], 1, "", "s", Category.NotPatch⟩

/-- An ack that is earlier (by timestamp and thread position) than the
patch it replies to. -/
def msgAck4 : Message :=
  ⟨some "ACK", "<a1>", some "git-send-email-p", [], 2, "", "s", Category.NotPatch⟩

/-- The patch the early ack replies to; demoted by the structural pass
after the ack was already processed. -/
def msgP4 : Message :=
  ⟨some "[PATCH] p", "git-send-email-p", some "zzz", [], 3, "", "s", Category.NotPatch⟩

/-- An ack later than the patch it replies to (the well-ordered case). -/
def msgAckW : Message :=
  ⟨some "ACK", "<aw>", some "git-send-email-w0", [], 3, "", "s", Category.NotPatch⟩

/-- Thread-building fixture: root of a three-message thread. -/
def msgT1 : Message :=
  ⟨some "a", "<1>", none, [], 3, "", "s", Category.NotPatch⟩

/-- Thread-building fixture: reply to the root. -/
def msgT2 : Message :=
  ⟨some "b", "<2>", some "<1>", [], 2, "", "s", Category.NotPatch⟩

/-- Thread-building fixture: linked to the thread only via References. -/
def msgT3 : Message :=
  ⟨some "c", "<3>", none, ["<2>"], 1, "", "s", Category.NotPatch⟩

/-- Thread-building fixture: an unrelated singleton. -/
def msgT4 : Message :=
  ⟨some "d", "<4>", none, [], 0, "", "s", Category.NotPatch⟩

/-! ## Basic lemmas -/

theorem setCat_core (m : Message) (c : Category) : msgCore (setCat m c) = msgCore m := rfl

theorem setCat_setCat (m : Message) (c c' : Category) :
    setCat (setCat m c) c' = setCat m c' := rfl

theorem setCat_self (m : Message) : setCat m m.category = m := rfl

theorem setCat_of_core_eq {a b : Message} (h : msgCore a = msgCore b) (c : Category) :
    setCat a c = setCat b c := by
  cases a; cases b
  simp only [msgCore, Prod.mk.injEq] at h
  simp [setCat, h.1, h.2.1, h.2.2.1, h.2.2.2.1, h.2.2.2.2.1, h.2.2.2.2.2]

theorem eq_setCat_of_core_eq {a b : Message} (h : msgCore a = msgCore b) :
    b = setCat a b.category := by
  have := setCat_of_core_eq h b.category
  rw [this, setCat_self]

/-! ### Sorting lemmas -/

theorem mem_insertBy {α : Type} (key : α → Nat) (x a : α) (l : List α) :
    a ∈ insertBy key x l ↔ a = x ∨ a ∈ l := by
  induction l with
  | nil => simp [insertBy]
  | cons y ys ih =>
      by_cases h : key x < key y
      · simp [insertBy, h]
      · simp only [insertBy, if_neg h, List.mem_cons, ih]
        tauto

theorem mem_sortBy {α : Type} (key : α → Nat) (a : α) (l : List α) :
    a ∈ sortBy key l ↔ a ∈ l := by
  induction l with
  | nil => simp [sortBy]
  | cons y ys ih => simp [sortBy, mem_insertBy, ih]

theorem pairwise_insertBy {α : Type} (key : α → Nat) (x : α) (l : List α)
    (h : l.Pairwise (fun a b => key a ≤ key b)) :
    (insertBy key x l).Pairwise (fun a b => key a ≤ key b) := by
  induction l with
  | nil => simp [insertBy]
  | cons y ys ih =>
      rcases List.pairwise_cons.1 h with ⟨hy, hys⟩
      by_cases hlt : key x < key y
      · rw [insertBy, if_pos hlt]
        refine List.pairwise_cons.2 ⟨?_, h⟩
        intro z hz
        rcases List.mem_cons.1 hz with rfl | hz
        · exact Nat.le_of_lt hlt
        · exact Nat.le_trans (Nat.le_of_lt hlt) (hy z hz)
      · rw [insertBy, if_neg hlt]
        refine List.pairwise_cons.2 ⟨?_, ih hys⟩
        intro z hz
        rcases (mem_insertBy key x z ys).1 hz with rfl | hz
        · exact Nat.le_of_not_lt hlt
        · exact hy z hz

theorem pairwise_sortBy {α : Type} (key : α → Nat) (l : List α) :
    (sortBy key l).Pairwise (fun a b => key a ≤ key b) := by
  induction l with
  | nil => simp [sortBy]
  | cons y ys ih => exact pairwise_insertBy key y (sortBy key ys) ih

theorem sortBy_head_min {α : Type} (key : α → Nat) (l : List α) (x : α)
    (hx : (sortBy key l).head? = some x) :
    ∀ y ∈ l, key x ≤ key y := by
  intro y hy
  have hmem : y ∈ sortBy key l := (mem_sortBy key y l).2 hy
  rcases hsort : sortBy key l with _ | ⟨z, rest⟩
  · rw [hsort] at hmem; simp at hmem
  · rw [hsort] at hx hmem
    simp only [List.head?_cons, Option.some.injEq] at hx
    subst hx
    rcases List.mem_cons.1 hmem with rfl | hmem
    · exact Nat.le_refl _
    · have := pairwise_sortBy key l
      rw [hsort] at this
      exact (List.pairwise_cons.1 this).1 y hmem

/-! ### filterThread lemmas -/

theorem mem_filterThread (t : List Message) (cat : Category) (m : Message) :
    m ∈ filterThread t cat ↔ m ∈ t ∧ m.category = cat := by
  simp [filterThread, sortByTs, mem_sortBy, List.mem_filter]

theorem filterThread_head_min (t : List Message) (cat : Category) (e : Message)
    (he : (filterThread t cat).head? = some e) :
    ∀ m ∈ t, m.category = cat → e.timestamp ≤ m.timestamp := by
  intro m hm hcat
  have : m ∈ t.filter (fun m => m.category == cat) := by
    simp [List.mem_filter, hm, hcat]
  exact sortBy_head_min Message.timestamp _ e he m this

/-! ### idxFilter lemmas -/

theorem idxFilter_mem (cat : Category) :
    ∀ (t : List Message) (k : Nat) (p : Nat × Message), p ∈ idxFilter cat t k →
      p.2 ∈ t ∧ p.2.category = cat := by
  intro t
  induction t with
  | nil => intro k p hp; simp [idxFilter] at hp
  | cons m rest ih =>
      intro k p hp
      by_cases h : (m.category == cat) = true
      · rw [idxFilter, if_pos h] at hp
        rcases List.mem_cons.1 hp with rfl | hp
        · exact ⟨List.mem_cons_self _ _, by simpa using h⟩
        · rcases ih (k + 1) p hp with ⟨h1, h2⟩
          exact ⟨List.mem_cons_of_mem _ h1, h2⟩
      · rw [idxFilter, if_neg h] at hp
        rcases ih (k + 1) p hp with ⟨h1, h2⟩
        exact ⟨List.mem_cons_of_mem _ h1, h2⟩

theorem idxFilter_complete (cat : Category) :
    ∀ (t : List Message) (k : Nat) (m : Message), m ∈ t → m.category = cat →
      ∃ i, (i, m) ∈ idxFilter cat t k := by
  intro t
  induction t with
  | nil => intro k m hm; simp at hm
  | cons x rest ih =>
      intro k m hm hcat
      rcases List.mem_cons.1 hm with rfl | hm
      · exact ⟨k, by rw [idxFilter, if_pos (by simpa using hcat)]; exact List.mem_cons_self _ _⟩
      · rcases ih (k + 1) m hm hcat with ⟨i, hi⟩
        by_cases h : (x.category == cat) = true
        · exact ⟨i, by rw [idxFilter, if_pos h]; exact List.mem_cons_of_mem _ hi⟩
        · exact ⟨i, by rw [idxFilter, if_neg h]; exact hi⟩

/-! ### Classifier helper lemmas -/

theorem getCategory_setCat (c : SimpleClassifier) (m : Message) (cat : Category) :
    getCategory c (setCat m cat) = getCategory c m := rfl

/-- `__is_patch` with the subject check's dead re-assignment simplified
away: the result is the disjunction of the three live signals. -/
theorem isPatch_eq (c : SimpleClassifier) (m : Message) :
    isPatch c m = (isGitSendEmail m || c.containsPatch m.body || isCoverLetter m) := by
  unfold isPatch
  rcases hs : subjectLooksLikePatch m <;>
    rcases hg : isGitSendEmail m <;>
    rcases hc : c.containsPatch m.body <;>
    rcases hl : isCoverLetter m <;> simp

/-! ### Core preservation through reclassification -/

theorem stepMsg_core (γ : Message → Category) (e : String) (ctx : List Message)
    (m : Message) : msgCore (stepMsg γ e ctx m) = msgCore m := rfl

theorem localPass_core (γ : Message → Category) (t : List Message) :
    (localPass γ t).map msgCore = t.map msgCore := by
  induction t with
  | nil => rfl
  | cons m rest ih =>
      simp only [localPass, List.map_cons, setCat_core] at ih ⊢
      rw [ih]

theorem structGo_core (γ : Message → Category) (e : String) :
    ∀ (t d : List Message), (structGo γ e d t).map msgCore = t.map msgCore := by
  intro t
  induction t with
  | nil => intro d; rfl
  | cons m rest ih =>
      intro d
      simp only [structGo, List.map_cons, stepMsg_core, ih]

theorem mkFromLocal_core (γ : Message → Category) (l : List Message) :
    (mkFromLocal γ l).thread.map msgCore = l.map msgCore := by
  rcases h1 : (filterThread l Category.PatchCoverLetter).head? with _ | e
  · rcases h2 : (sortBy (fun p => p.2.timestamp) (idxFilter Category.PatchN l 0)).head? with _ | p
    · simp only [mkFromLocal, h1, h2]
    · simp only [mkFromLocal, h1, h2]
      exact structGo_core γ p.2.message_id l []
  · simp only [mkFromLocal, h1]
    exact structGo_core γ e.message_id l []

theorem reclassifyThread_core (γ : Message → Category) (t : List Message) :
    (reclassifyThread γ t).map msgCore = t.map msgCore := by
  unfold reclassifyThread mkPatchSet
  rw [mkFromLocal_core, localPass_core]

/-! ### Forall₂ helpers -/

theorem forall₂_mem_right {α β : Type} {R : α → β → Prop} :
    ∀ {l₁ : List α} {l₂ : List β}, List.Forall₂ R l₁ l₂ → ∀ b ∈ l₂, ∃ a ∈ l₁, R a b := by
  intro l₁ l₂ h
  induction h with
  | nil => intro b hb; simp at hb
  | cons hR _ ih =>
      intro b hb
      rcases List.mem_cons.1 hb with rfl | hb
      · exact ⟨_, List.mem_cons_self _ _, hR⟩
      · rcases ih b hb with ⟨a, ha, hab⟩
        exact ⟨a, List.mem_cons_of_mem _ ha, hab⟩

theorem forall₂_mem_left {α β : Type} {R : α → β → Prop} :
    ∀ {l₁ : List α} {l₂ : List β}, List.Forall₂ R l₁ l₂ → ∀ a ∈ l₁, ∃ b ∈ l₂, R a b := by
  intro l₁ l₂ h
  induction h with
  | nil => intro a ha; simp at ha
  | cons hR _ ih =>
      intro a ha
      rcases List.mem_cons.1 ha with rfl | ha
      · exact ⟨_, List.mem_cons_self _ _, hR⟩
      · rcases ih a ha with ⟨b, hb, hab⟩
        exact ⟨b, List.mem_cons_of_mem _ hb, hab⟩

/-! ### Case analysis of the structural loop body -/

theorem newCatFor_epochId (γ : Message → Category) (e : String) (ctx : List Message)
    (m : Message) (h : (m.message_id == e) = true) :
    newCatFor γ e ctx m = m.category := by
  unfold newCatFor
  rw [if_pos h]

/-- If the loop body leaves a non-epoch message with category PatchN, the
message was already PatchN and its reply pointer, when truthy, names the
epoch. -/
theorem newCatFor_patchN_inv (γ : Message → Category) (e : String) (ctx : List Message)
    (m : Message) (hfresh : m.category = γ m)
    (hne : (m.message_id == e) = false)
    (h : newCatFor γ e ctx m = Category.PatchN)
    (htr : strTruthy m.in_reply_to = true) :
    m.in_reply_to = some e := by
  have hne' : ¬ ((m.message_id == e) = true) := by rw [hne]; simp
  unfold newCatFor at h
  rw [if_neg hne'] at h
  rcases hcat : m.category with _ | _ | _ | _ | _ | _ <;> rw [hcat] at h
  case NotPatch =>
    rw [if_pos (by decide)] at h
    rw [hcat] at hfresh
    rw [← hfresh] at h
    exact absurd h (by decide)
  case PatchCoverLetter =>
    rw [if_neg (by decide), if_pos (by decide)] at h
    exact absurd h (by decide)
  case PatchN =>
    rw [if_neg (by decide), if_neg (by decide), if_pos (by decide)] at h
    rcases hb : (m.in_reply_to == some e) with _ | _
    · rw [htr, hb] at h
      simp at h
    · exact eq_of_beq hb
  case PatchAck =>
    rw [if_neg (by decide), if_neg (by decide), if_neg (by decide), if_pos (by decide),
      htr, if_pos rfl] at h
    rcases hr : m.in_reply_to with _ | r
    · rw [hr] at htr; simp [strTruthy] at htr
    · rw [hr] at h
      dsimp only at h
      rcases hq : findReply ctx r with _ | q
      · rw [hq] at h; exact absurd h (by decide)
      · rw [hq] at h
        dsimp only at h
        rcases hqc : categoryIn q.category parentKinds with _ | _ <;> rw [hqc] at h <;> simp at h
  case PatchNak =>
    rw [if_neg (by decide), if_neg (by decide), if_neg (by decide), if_pos (by decide),
      htr, if_pos rfl] at h
    rcases hr : m.in_reply_to with _ | r
    · rw [hr] at htr; simp [strTruthy] at htr
    · rw [hr] at h
      dsimp only at h
      rcases hq : findReply ctx r with _ | q
      · rw [hq] at h; exact absurd h (by decide)
      · rw [hq] at h
        dsimp only at h
        rcases hqc : categoryIn q.category parentKinds with _ | _ <;> rw [hqc] at h <;> simp at h
  case PatchApplied =>
    rw [if_neg (by decide), if_neg (by decide), if_neg (by decide), if_pos (by decide),
      htr, if_pos rfl] at h
    rcases hr : m.in_reply_to with _ | r
    · rw [hr] at htr; simp [strTruthy] at htr
    · rw [hr] at h
      dsimp only at h
      rcases hq : findReply ctx r with _ | q
      · rw [hq] at h; exact absurd h (by decide)
      · rw [hq] at h
        dsimp only at h
        rcases hqc : categoryIn q.category parentKinds with _ | _ <;> rw [hqc] at h <;> simp at h

/-- The loop body only ever returns the old category, the re-run classifier
value, or NotPatch. -/
theorem newCatFor_mem (γ : Message → Category) (e : String) (ctx : List Message)
    (m : Message) :
    newCatFor γ e ctx m = m.category ∨ newCatFor γ e ctx m = γ m ∨
      newCatFor γ e ctx m = Category.NotPatch := by
  unfold newCatFor
  repeat' split
  all_goals first
    | exact Or.inl rfl
    | exact Or.inr (Or.inl rfl)
    | exact Or.inr (Or.inr rfl)

/-- A cover letter keeps its category through the loop body. -/
theorem newCatFor_of_CL (γ : Message → Category) (e : String) (ctx : List Message)
    (m : Message) (hcl : m.category = Category.PatchCoverLetter) :
    newCatFor γ e ctx m = m.category := by
  by_cases h0 : (m.message_id == e) = true
  · exact newCatFor_epochId γ e ctx m h0
  · unfold newCatFor
    rw [if_neg h0, hcl]
    rw [if_neg (by decide), if_pos (by decide)]

/-- If the loop body leaves a non-epoch message with an ack/nak/applied
category and its truthy reply pointer resolves in the current context, the
resolved parent is a cover letter or a patch. -/
theorem newCatFor_ack_inv (γ : Message → Category) (e : String) (ctx : List Message)
    (m : Message) (hfresh : m.category = γ m)
    (hne : (m.message_id == e) = false)
    (h : categoryIn (newCatFor γ e ctx m) ackKinds = true)
    (r : String) (hr : m.in_reply_to = some r)
    (htr : strTruthy m.in_reply_to = true)
    (q : Message) (hq : findReply ctx r = some q) :
    categoryIn q.category parentKinds = true := by
  have hne' : ¬ ((m.message_id == e) = true) := by rw [hne]; simp
  unfold newCatFor at h
  rw [if_neg hne'] at h
  rcases hcat : m.category with _ | _ | _ | _ | _ | _ <;> rw [hcat] at h
  case NotPatch =>
    rw [if_pos (by decide)] at h
    rw [hcat] at hfresh
    rw [← hfresh] at h
    exact absurd h (by decide)
  case PatchCoverLetter =>
    rw [if_neg (by decide), if_pos (by decide)] at h
    exact absurd h (by decide)
  case PatchN =>
    rw [if_neg (by decide), if_neg (by decide), if_pos (by decide)] at h
    rcases hb : (strTruthy m.in_reply_to && !(m.in_reply_to == some e)) with _ | _ <;>
      rw [hb] at h <;> simp at h <;> exact absurd h (by decide)
  all_goals
    rw [if_neg (by decide), if_neg (by decide), if_neg (by decide), if_pos (by decide),
      htr, if_pos rfl, hr] at h
    dsimp only at h
    rw [hq] at h
    dsimp only at h
    rcases hqc : categoryIn q.category parentKinds with _ | _
    · rw [hqc] at h
      simp at h
      exact absurd h (by decide)
    · rfl

theorem stepMsg_stepRel (γ : Message → Category) (e : String) (ctx : List Message)
    (m : Message) (hfresh : m.category = γ m) :
    stepRel m (stepMsg γ e ctx m) := by
  refine ⟨rfl, ?_, ?_⟩
  · show newCatFor γ e ctx m = Category.PatchCoverLetter ↔ m.category = Category.PatchCoverLetter
    constructor
    · intro h
      rcases newCatFor_mem γ e ctx m with hm | hm | hm
      · rw [← hm]; exact h
      · rw [hfresh, ← hm]; exact h
      · rw [hm] at h; exact absurd h (by decide)
    · intro h
      rw [newCatFor_of_CL γ e ctx m h]; exact h
  · show newCatFor γ e ctx m = Category.PatchN → m.category = Category.PatchN
    intro h
    rcases newCatFor_mem γ e ctx m with hm | hm | hm
    · rw [← hm]; exact h
    · rw [hfresh, ← hm]; exact h
    · rw [hm] at h; exact absurd h (by decide)

/-! ### Structural pass lemmas -/

theorem structGo_stepRel (γ : Message → Category) (e : String) :
    ∀ (t d : List Message), (∀ m ∈ t, m.category = γ m) →
      List.Forall₂ stepRel t (structGo γ e d t) := by
  intro t
  induction t with
  | nil => intro d _; exact List.Forall₂.nil
  | cons m rest ih =>
      intro d hfresh
      refine List.Forall₂.cons ?_ (ih _ (fun x hx => hfresh x (List.mem_cons_of_mem _ hx)))
      exact stepMsg_stepRel γ e _ m (hfresh m (List.mem_cons_self _ _))

theorem structGo_epochId_mem (γ : Message → Category) (e : String) :
    ∀ (t d : List Message) (m : Message), m ∈ t → (m.message_id == e) = true →
      m ∈ structGo γ e d t := by
  intro t
  induction t with
  | nil => intro d m hm; simp at hm
  | cons m0 rest ih =>
      intro d m hm hid
      rcases List.mem_cons.1 hm with rfl | hm
      · have : stepMsg γ e (d ++ m :: rest) m = m := by
          rw [stepMsg, newCatFor_epochId γ e _ m hid, setCat_self]
        rw [structGo]
        rw [this]
        exact List.mem_cons_self _ _
      · rw [structGo]
        exact List.mem_cons_of_mem _ (ih _ m hm hid)

theorem structGo_patchN_reply (γ : Message → Category) (e : String) :
    ∀ (t d : List Message), (∀ m ∈ t, m.category = γ m) →
      ∀ m' ∈ structGo γ e d t, m'.category = Category.PatchN →
        (m'.message_id == e) = false → strTruthy m'.in_reply_to = true →
        m'.in_reply_to = some e := by
  intro t
  induction t with
  | nil => intro d _ m' hm'; simp [structGo] at hm'
  | cons m0 rest ih =>
      intro d hfresh m' hm' hcat hne htr
      rw [structGo] at hm'
      rcases List.mem_cons.1 hm' with rfl | hm'
      · exact newCatFor_patchN_inv γ e _ m0 (hfresh m0 (List.mem_cons_self _ _)) hne hcat htr
      · exact ih _ (fun x hx => hfresh x (List.mem_cons_of_mem _ hx)) m' hm' hcat hne htr

theorem localPass_fresh (γ : Message → Category)
    (hγ : ∀ m c, γ (setCat m c) = γ m) (t : List Message) :
    ∀ m ∈ localPass γ t, m.category = γ m := by
  intro m hm
  rcases List.mem_map.1 hm with ⟨m0, _, rfl⟩
  show (setCat m0 (γ m0)).category = γ (setCat m0 (γ m0))
  rw [hγ]
  rfl

/-- After construction, a non-epoch PatchN message with a truthy reply
pointer replies to the epoch (stated over `mkFromLocal`). -/
theorem mkFromLocal_patchN_reply (γ : Message → Category) (l : List Message)
    (hfresh : ∀ m ∈ l, m.category = γ m) (e m : Message)
    (he : (mkFromLocal γ l).epochPatch = some e)
    (hm : m ∈ (mkFromLocal γ l).thread)
    (hcat : m.category = Category.PatchN)
    (hne : (m.message_id == e.message_id) = false)
    (htr : strTruthy m.in_reply_to = true) :
    m.in_reply_to = some e.message_id := by
  rcases h1 : (filterThread l Category.PatchCoverLetter).head? with _ | e0
  · rcases h2 : (sortBy (fun p => p.2.timestamp) (idxFilter Category.PatchN l 0)).head? with _ | p
    · simp only [mkFromLocal, h1, h2, PatchSet.epochPatch] at he
      exact absurd he (by simp)
    · simp only [mkFromLocal, h1, h2, PatchSet.epochPatch] at he hm
      cases Option.some.inj he
      exact structGo_patchN_reply γ _ l [] hfresh m hm hcat hne htr
  · simp only [mkFromLocal, h1, PatchSet.epochPatch] at he hm
    cases Option.some.inj he
    exact structGo_patchN_reply γ _ l [] hfresh m hm hcat hne htr

/-! ## Claim C1 -/

/-- C1 (counterexample): a message whose subject is present, starts with
none of applied/nak/nac/ack, and contains none of the patch/sru/ubuntu/pull
tokens is nevertheless classified PatchN, because its message id contains
`git-send-email`; so the subject token match is not a necessary condition
for patch classification, contrary to the claim. -/
theorem C1_counterexample :
    msgGse.subject = some "Hello world" ∧
    strStarts (lowerStr "Hello world") "applied" = false ∧
    strStarts (lowerStr "Hello world") "nak" = false ∧
    strStarts (lowerStr "Hello world") "nac" = false ∧
    strStarts (lowerStr "Hello world") "ack" = false ∧
    subjectLooksLikePatch msgGse = false ∧
    getCategory cNoDiff msgGse ≠ Category.NotPatch ∧
    getCategory cNoDiff msgGse = Category.PatchN := by decide

/-- C1 (amended): for every message whose subject is present and starts
with none of applied/nak/nac/ack, `get_category` returns NotPatch *exactly
when* all three live signals are absent — no `git-send-email` marker in the
message id, no parseable diff hunks in the body, fewer than two template
markers; and whenever one of the live signals holds, the message is
classified PatchCoverLetter when the template-marker test holds and PatchN
otherwise.  The subject token check of `__is_patch` has no effect on the
outcome in either direction (it is not among the hypotheses). -/
theorem C1_amended (c : SimpleClassifier) (m : Message) (s : String)
    (hsub : m.subject = some s)
    (hap : strStarts (lowerStr s) "applied" = false)
    (hnak : strStarts (lowerStr s) "nak" = false)
    (hnac : strStarts (lowerStr s) "nac" = false)
    (hack : strStarts (lowerStr s) "ack" = false) :
    (getCategory c m = Category.NotPatch ↔
      isGitSendEmail m = false ∧ c.containsPatch m.body = false ∧
        isCoverLetter m = false) ∧
    ((isGitSendEmail m = true ∨ c.containsPatch m.body = true ∨
        isCoverLetter m = true) →
      getCategory c m =
        (if isCoverLetter m = true then Category.PatchCoverLetter
          else Category.PatchN)) := by
  have hgc : getCategory c m =
      (if isPatch c m = true then
        (if isCoverLetter m = true then Category.PatchCoverLetter
          else Category.PatchN)
      else Category.NotPatch) := by
    simp [getCategory, hsub, hap, hnak, hnac, hack]
  constructor
  · rw [hgc, isPatch_eq]
    rcases hg : isGitSendEmail m <;> rcases hd : c.containsPatch m.body <;>
      rcases hl : isCoverLetter m <;> simp
  · intro hsig
    have hp : isPatch c m = true := by
      rw [isPatch_eq]
      rcases hsig with h | h | h <;> simp [h]
    rw [hgc, hp]
    simp

/-- C1 (witness): the amended theorem applied to two concrete token-free
messages — one carrying the `git-send-email` signal (classified PatchN by
the forward part), one with no live signal (classified NotPatch by the
backward part of the biconditional). -/
theorem C1_witness :
    getCategory cNoDiff msgGse = Category.PatchN ∧
    getCategory cNoDiff msgPlain = Category.NotPatch := by
  constructor
  · have h := (C1_amended cNoDiff msgGse "Hello world" rfl (by decide) (by decide)
      (by decide) (by decide)).2 (Or.inl (by decide))
    rw [h]
    decide
  · exact (C1_amended cNoDiff msgPlain "Hello world" rfl (by decide) (by decide)
      (by decide) (by decide)).1.mpr ⟨by decide, by decide, by decide⟩

/-! ## Claim C7 -/

/-- C7: the claimed scenario — subject `[PATCH] Fix bug`, message id
`<p1>`, no reply headers, a body with no parseable diff hunks and fewer
than two template markers — is classified NotPatch by the code, not the
PatchN the spec scenario requires: `__is_patch` discards the result of the
subject check (`is_patch` stays `False`), contradicting the function's own
comments (`Skip subjects that do not conform`, and the closing comment
asserting that reaching `False` means the subject was wrong). -/
theorem C7_code_eval :
    msgP1.subject = some "[PATCH] Fix bug" ∧
    msgP1.message_id = "<p1>" ∧
    msgP1.in_reply_to = none ∧
    cNoDiff.containsPatch msgP1.body = false ∧
    isCoverLetter msgP1 = false ∧
    subjectLooksLikePatch msgP1 = true ∧
    getCategory cNoDiff msgP1 = Category.NotPatch := by decide

/-! ## Claim C3 -/

/-- C3 (counterexample): in the single-message thread of `msgSolo` the
epoch itself keeps category PatchN although its `in_reply_to` is set and
differs from the epoch's message id — the structural pass skips the epoch,
so the claimed invariant fails when quantified over all thread messages
including the epoch. -/
theorem C3_counterexample :
    ((mkPatchSet (getCategory cNoDiff) [msgSolo]).epochPatch).map Message.message_id =
      some "git-send-email-1" ∧
    ∃ m ∈ (mkPatchSet (getCategory cNoDiff) [msgSolo]).thread,
      m.category = Category.PatchN ∧ strTruthy m.in_reply_to = true ∧
      m.in_reply_to ≠ some "git-send-email-1" := by decide

/-- C3 (amended): after reclassification, every PatchN message other than
the epoch (more precisely, whose message id differs from the epoch's, since
the pass skips by id equality) with a truthy `in_reply_to` replies to the
epoch; the epoch itself is exempt. -/
theorem C3_amended (c : SimpleClassifier) (t : List Message) (e m : Message)
    (he : (mkPatchSet (getCategory c) t).epochPatch = some e)
    (hm : m ∈ (mkPatchSet (getCategory c) t).thread)
    (hcat : m.category = Category.PatchN)
    (hne : m.message_id ≠ e.message_id)
    (htr : strTruthy m.in_reply_to = true) :
    m.in_reply_to = some e.message_id := by
  have hfresh := localPass_fresh (getCategory c) (getCategory_setCat c) t
  have hneb : (m.message_id == e.message_id) = false := by
    simp [hne]
  exact mkFromLocal_patchN_reply (getCategory c) (localPass (getCategory c) t)
    hfresh e m he hm hcat hneb htr

/-- C3 (witness): the amended theorem applied to a concrete two-patch
thread. -/
theorem C3_witness :
    (mkPatchSet (getCategory cNoDiff) [msgEw, msgPw]).epochPatch =
      some (setCat msgEw Category.PatchN) ∧
    (setCat msgPw Category.PatchN).in_reply_to =
      some (setCat msgEw Category.PatchN).message_id :=
  ⟨by decide,
   C3_amended cNoDiff [msgEw, msgPw] (setCat msgEw Category.PatchN)
     (setCat msgPw Category.PatchN) (by decide) (by decide) (by decide) (by decide)
     (by decide)⟩

/-! ## Claim C5 -/

theorem localPass_congr (γ : Message → Category)
    (hγ : ∀ m c, γ (setCat m c) = γ m) :
    ∀ {t₁ t₂ : List Message}, t₁.map msgCore = t₂.map msgCore →
      localPass γ t₁ = localPass γ t₂ := by
  intro t₁
  induction t₁ with
  | nil =>
      intro t₂ h
      rcases t₂ with _ | ⟨b, t₂b⟩
      · rfl
      · simp at h
  | cons a t ih =>
      intro t₂ h
      rcases t₂ with _ | ⟨b, t₂b⟩
      · simp at h
      · simp only [List.map_cons, List.cons.injEq] at h
        obtain ⟨hab, htl⟩ := h
        show setCat a (γ a) :: localPass γ t = setCat b (γ b) :: localPass γ t₂b
        have hb : b = setCat a b.category := eq_setCat_of_core_eq hab
        have hγb : γ b = γ a := by rw [hb, hγ]
        have hsc : setCat b (γ b) = setCat a (γ a) := by
          rw [hγb, hb, setCat_setCat]
        rw [ih htl, hsc]

/-- C5: reclassification is idempotent.  The pass first overwrites every
category with the local classification, which depends only on the immutable
fields (hypothesis `hγ`, satisfied by `SimpleClassifier.get_category`), and
those fields are preserved by the pass, so a second run reproduces the
first. -/
theorem C5_idempotent (γ : Message → Category)
    (hγ : ∀ m c, γ (setCat m c) = γ m) (t : List Message) :
    reclassifyThread γ (reclassifyThread γ t) = reclassifyThread γ t := by
  have hcore : (reclassifyThread γ t).map msgCore = t.map msgCore :=
    reclassifyThread_core γ t
  show (mkFromLocal γ (localPass γ (reclassifyThread γ t))).thread = _
  rw [localPass_congr γ hγ hcore]
  rfl

/-- C5 (witness): idempotence at a concrete two-patch thread with the
concrete classifier. -/
theorem C5_witness :
    reclassifyThread (getCategory cNoDiff)
        (reclassifyThread (getCategory cNoDiff) [msgEw, msgPw]) =
      reclassifyThread (getCategory cNoDiff) [msgEw, msgPw] :=
  C5_idempotent (getCategory cNoDiff) (getCategory_setCat cNoDiff) [msgEw, msgPw]

/-! ## Claim C10 -/

theorem map_msgHash_of_core {l₁ l₂ : List Message}
    (h : l₁.map msgCore = l₂.map msgCore) :
    l₁.map msgHash = l₂.map msgHash := by
  have h1 : ∀ l : List Message, l.map msgHash =
      (l.map msgCore).map (fun cr => (cr.1, cr.2.1, cr.2.2.1, cr.2.2.2.2.1)) := by
    intro l
    rw [List.map_map]
    rfl
  rw [h1, h1, h]

theorem map_id_of_core {l₁ l₂ : List Message}
    (h : l₁.map msgCore = l₂.map msgCore) :
    l₁.map Message.message_id = l₂.map Message.message_id := by
  have h1 : ∀ l : List Message, l.map Message.message_id =
      (l.map msgCore).map (fun cr => cr.2.1) := by
    intro l
    rw [List.map_map]
    rfl
  rw [h1, h1, h]

/-- C10: the hash is a function of (subject, message_id, in_reply_to,
timestamp) and never of the mutable category, so reclassification — which
only rewrites categories — changes no message's hash and no message's
identity for equality (which is determined solely by message_id); yet two
messages that are equal (same id) can hash differently when another hashed
field differs. -/
theorem C10_hash_eq :
    (∀ (m : Message) (c : Category), msgHash (setCat m c) = msgHash m) ∧
    (∀ (γ : Message → Category) (t : List Message),
      (reclassifyThread γ t).map msgHash = t.map msgHash) ∧
    (∀ (γ : Message → Category) (t : List Message),
      (reclassifyThread γ t).map Message.message_id = t.map Message.message_id) ∧
    (∃ a b : Message, msgEq a b = true ∧ msgHash a ≠ msgHash b) := by
  refine ⟨fun m c => rfl,
    fun γ t => map_msgHash_of_core (reclassifyThread_core γ t),
    fun γ t => map_id_of_core (reclassifyThread_core γ t), ?_⟩
  exact ⟨⟨some "test 1", "<123>", none, [], 1, "", "s", Category.NotPatch⟩,
    ⟨some "test 2", "<123>", none, [], 1, "", "s", Category.NotPatch⟩,
    by decide, by decide⟩

/-! ## Claim C9 -/

theorem dropLeadU_head :
    ∀ (l : List Char) (ch : Char), (dropLeadU l).head? = some ch → ch ≠ '_' := by
  intro l
  induction l with
  | nil => intro ch h; simp [dropLeadU] at h
  | cons c t ih =>
      intro ch h
      by_cases hc : (c == '_') = true
      · rw [dropLeadU, if_pos hc] at h
        exact ih ch h
      · rw [dropLeadU, if_neg hc] at h
        simp only [List.head?_cons, Option.some.injEq] at h
        subst h
        simpa using hc

theorem dropLeadU_sub : ∀ (l : List Char), ∀ x ∈ dropLeadU l, x ∈ l := by
  intro l
  induction l with
  | nil => intro x hx; simp [dropLeadU] at hx
  | cons c t ih =>
      intro x hx
      by_cases hc : (c == '_') = true
      · rw [dropLeadU, if_pos hc] at hx
        exact List.mem_cons_of_mem _ (ih x hx)
      · rw [dropLeadU, if_neg hc] at hx
        exact hx

theorem dropLeadU_getLast :
    ∀ (l : List Char) (c : Char), (dropLeadU l).getLast? = some c → l.getLast? = some c := by
  intro l
  induction l with
  | nil => intro c h; simp [dropLeadU] at h
  | cons ch t ih =>
      intro c h
      by_cases hc : (ch == '_') = true
      · rw [dropLeadU, if_pos hc] at h
        have ht := ih c h
        rcases t with _ | ⟨y, ys⟩
        · simp at ht
        · rw [List.getLast?_cons_cons]
          exact ht
      · rw [dropLeadU, if_neg hc] at h
        exact h

theorem stripU_head (l : List Char) (c : Char) (h : (stripU l).head? = some c) :
    c ≠ '_' :=
  dropLeadU_head _ c h

theorem stripU_getLast (l : List Char) (c : Char) (h : (stripU l).getLast? = some c) :
    c ≠ '_' := by
  unfold stripU at h
  have h2 := dropLeadU_getLast _ c h
  rw [List.getLast?_reverse] at h2
  exact dropLeadU_head _ c h2

theorem stripU_sub (l : List Char) : ∀ x ∈ stripU l, x ∈ l := by
  intro x hx
  have h1 := dropLeadU_sub _ x hx
  rw [List.mem_reverse] at h1
  have h2 := dropLeadU_sub _ x h1
  rw [List.mem_reverse] at h2
  exact h2

/-- C9 (counterexample): a message with a present but empty subject gets
`None` from `generate_patch_name` (the guard `if not self.subject` treats
the empty string as absent), so the name is not `None` exactly when the
subject is absent. -/
theorem C9_counterexample :
    ¬ (generatePatchName msgEmptySubj = none ↔ msgEmptySubj.subject = none) := by
  decide

/-- C9 (amended): `generate_patch_name` returns `None` exactly when the
subject is absent or empty; otherwise the returned name consists only of
alphanumeric characters and underscores and neither begins nor ends with an
underscore. -/
theorem C9_amended (m : Message) :
    (generatePatchName m = none ↔ m.subject = none ∨ m.subject = some "") ∧
    (∀ nm, generatePatchName m = some nm →
      (∀ ch ∈ nm.data, ch.isAlphanum = true ∨ ch = '_') ∧
      (∀ ch, nm.data.head? = some ch → ch ≠ '_') ∧
      (∀ ch, nm.data.getLast? = some ch → ch ≠ '_')) := by
  rcases hs : m.subject with _ | s
  · constructor
    · simp [generatePatchName, hs]
    · intro nm h
      simp [generatePatchName, hs] at h
  · have hiff := String.isEmpty_iff s
    by_cases hse : s = ""
    · subst hse
      constructor
      · simp [generatePatchName, hs, String.isEmpty_iff]
      · intro nm h
        simp [generatePatchName, hs, String.isEmpty_iff] at h
    · constructor
      · simp [generatePatchName, hs, hiff, hse]
      · intro nm h
        simp only [generatePatchName, hs] at h
        rw [if_neg (by rw [hiff]; exact hse)] at h
        rw [Option.some.injEq] at h
        subst h
        refine ⟨?_, ?_, ?_⟩
        · intro ch hch
          have hmem := stripU_sub _ ch hch
          rcases List.mem_map.1 hmem with ⟨c0, _, hc0⟩
          by_cases ha : c0.isAlphanum = true
          · rw [if_pos ha] at hc0
            subst hc0
            exact Or.inl ha
          · rw [if_neg ha] at hc0
            exact Or.inr hc0.symm
        · intro ch hch
          exact stripU_head _ ch hch
        · intro ch hch
          exact stripU_getLast _ ch hch

/-- C9 (witness): the amended theorem applied to a concrete message. -/
theorem C9_witness :
    generatePatchName msgPlain = some "Hello_world___m1" ∧
    (∀ ch ∈ ("Hello_world___m1" : String).data, ch.isAlphanum = true ∨ ch = '_') :=
  ⟨by decide,
   fun ch hch =>
     (((C9_amended msgPlain).2 "Hello_world___m1" (by decide)).1) ch hch⟩

/-! ## Claim C2 -/

/-- C2: in a thread with no cover letter, `epoch_patch` materialises the
`patches` `cached_property` *before* the structural pass runs; the cache is
never invalidated, so after construction `patches` still lists a message
that the structural pass demoted to NotPatch.  Concretely, `msgB2` (reply
pointer dangling) is demoted, yet the `patches` view still returns both
messages, while filtering the final thread by PatchN returns only the
epoch.  This contradicts the `patches` docstring ("All patches in this
thread") and the spec's invalidation requirement. -/
theorem C2_stale_cache :
    ((mkPatchSet (getCategory cNoDiff) [msgA2, msgB2]).thread.map
        (fun m => (m.message_id, m.category)) =
      [("git-send-email-a", Category.PatchN), ("git-send-email-b", Category.NotPatch)]) ∧
    ((mkPatchSet (getCategory cNoDiff) [msgA2, msgB2]).patches.map Message.message_id =
      ["git-send-email-a", "git-send-email-b"]) ∧
    ((filterThread (mkPatchSet (getCategory cNoDiff) [msgA2, msgB2]).thread
        Category.PatchN).map Message.message_id =
      ["git-send-email-a"]) := by decide

/-! ## Claim C4 -/

theorem find?_eq_findIdxFrom (p : Message → Bool) :
    ∀ l : List Message, l.find? p = (findIdxFrom p l).bind l.get? := by
  intro l
  induction l with
  | nil => rfl
  | cons x t ih =>
      by_cases hp : p x = true
      · rw [List.find?_cons_of_pos _ hp, findIdxFrom, if_pos hp]
        rfl
      · rw [List.find?_cons_of_neg _ hp, findIdxFrom, if_neg hp, ih]
        rcases findIdxFrom p t with _ | j <;> rfl

theorem findIdxFrom_congr_id (r : String) :
    ∀ (l₁ l₂ : List Message), l₁.map Message.message_id = l₂.map Message.message_id →
      findIdxFrom (fun x => x.message_id == r) l₁ =
        findIdxFrom (fun x => x.message_id == r) l₂ := by
  intro l₁
  induction l₁ with
  | nil =>
      intro l₂ h
      rcases l₂ with _ | ⟨b, t₂⟩
      · rfl
      · simp at h
  | cons a t ih =>
      intro l₂ h
      rcases l₂ with _ | ⟨b, t₂⟩
      · simp at h
      · simp only [List.map_cons, List.cons.injEq] at h
        obtain ⟨hid, htl⟩ := h
        rw [findIdxFrom, findIdxFrom, hid, ih t₂ htl]

/-- The acks/naks/applieds whose resolved parent precedes them in thread
order see the parent's final category: if such a message survives with an
ack-kind category, its parent's final category is a cover letter or a
patch. -/
theorem structGo_ack_parent (γ : Message → Category) (e : String) :
    ∀ (t d : List Message), (∀ m ∈ t, m.category = γ m) →
      ∀ (i j : Nat) (m q : Message) (r : String),
        (d ++ structGo γ e d t).get? i = some m →
        d.length ≤ i →
        categoryIn m.category ackKinds = true →
        (m.message_id == e) = false →
        m.in_reply_to = some r →
        strTruthy m.in_reply_to = true →
        findIdxFrom (fun x => x.message_id == r) (d ++ structGo γ e d t) = some j →
        j < i →
        (d ++ structGo γ e d t).get? j = some q →
        categoryIn q.category parentKinds = true := by
  intro t
  induction t with
  | nil =>
      intro d _ i j m q r hi hlen _ _ _ _ _ _ _
      rw [structGo, List.append_nil] at hi
      rw [List.get?_eq_none.2 hlen] at hi
      cases hi
  | cons m0 rest ih =>
      intro d hfresh i j m q r hi hlen hack hne hr htr hfind hj hq
      set m' := stepMsg γ e (d ++ m0 :: rest) m0 with hm'
      have hF : d ++ structGo γ e d (m0 :: rest) =
          (d ++ [m']) ++ structGo γ e (d ++ [m']) rest := by
        simp only [structGo]
        simp [List.append_assoc]
      rcases Nat.eq_or_lt_of_le hlen with heq | hlt
      · -- the head position: m is the freshly processed message
        subst heq
        have hm : m = m' := by
          simp only [structGo] at hi
          rw [List.get?_append_right (Nat.le_refl _)] at hi
          simp only [Nat.sub_self, List.get?_cons_zero, Option.some.injEq] at hi
          exact hi.symm
        subst hm
        have hids : (d ++ m0 :: rest).map Message.message_id =
            (d ++ structGo γ e d (m0 :: rest)).map Message.message_id := by
          simp only [structGo, List.map_append, List.map_cons]
          have hrest : (structGo γ e (d ++ [m']) rest).map Message.message_id =
              rest.map Message.message_id :=
            map_id_of_core (structGo_core γ e rest (d ++ [m']))
          rw [hrest]
          rfl
        have hfr : findIdxFrom (fun x => x.message_id == r) (d ++ m0 :: rest) = some j := by
          rw [findIdxFrom_congr_id r _ _ hids]
          exact hfind
        have hctxq : (d ++ m0 :: rest).get? j = some q := by
          rw [List.get?_append hj]
          rw [List.get?_append hj] at hq
          exact hq
        have hfq : findReply (d ++ m0 :: rest) r = some q := by
          rw [findReply, find?_eq_findIdxFrom, hfr]
          exact hctxq
        exact newCatFor_ack_inv γ e (d ++ m0 :: rest) m0
          (hfresh m0 (List.mem_cons_self _ _)) hne hack r hr htr q hfq
      · -- further positions: recurse with the processed prefix extended
        rw [hF] at hi hfind hq
        refine ih (d ++ [m'])
          (fun x hx => hfresh x (List.mem_cons_of_mem _ hx)) i j m q r hi ?_
          hack hne hr htr hfind hj hq
        simpa using hlt

/-- C4 at the level of `mkFromLocal`. -/
theorem mkFromLocal_ack_parent (γ : Message → Category) (l : List Message)
    (hfresh : ∀ m ∈ l, m.category = γ m) (e m q : Message) (i j : Nat) (r : String)
    (he : (mkFromLocal γ l).epochPatch = some e)
    (hi : (mkFromLocal γ l).thread.get? i = some m)
    (hack : categoryIn m.category ackKinds = true)
    (hne : (m.message_id == e.message_id) = false)
    (hr : m.in_reply_to = some r)
    (htr : strTruthy m.in_reply_to = true)
    (hfind : findIdxFrom (fun x => x.message_id == r) (mkFromLocal γ l).thread = some j)
    (hj : j < i)
    (hq : (mkFromLocal γ l).thread.get? j = some q) :
    categoryIn q.category parentKinds = true := by
  rcases h1 : (filterThread l Category.PatchCoverLetter).head? with _ | e0
  · rcases h2 : (sortBy (fun p => p.2.timestamp) (idxFilter Category.PatchN l 0)).head? with _ | p
    · simp only [mkFromLocal, h1, h2, PatchSet.epochPatch] at he
      exact absurd he (by simp)
    · simp only [mkFromLocal, h1, h2, PatchSet.epochPatch] at he hi hfind hq
      cases Option.some.inj he
      exact structGo_ack_parent γ _ l [] hfresh i j m q r hi (Nat.zero_le _)
        hack hne hr htr hfind hj hq
  · simp only [mkFromLocal, h1, PatchSet.epochPatch] at he hi hfind hq
    cases Option.some.inj he
    exact structGo_ack_parent γ _ l [] hfresh i j m q r hi (Nat.zero_le _)
      hack hne hr htr hfind hj hq

/-- C4 (counterexample): an ACK that precedes (in thread order and by
timestamp) the patch it replies to keeps its PatchAck category although the
structural pass later demotes that patch to NotPatch — the parent lookup
reads the mutating list, so the claimed invariant fails for this order. -/
theorem C4_counterexample :
    ((mkPatchSet (getCategory cNoDiff) [msgE4, msgAck4, msgP4]).thread.map
        (fun m => (m.message_id, m.category)) =
      [("git-send-email-e", Category.PatchN), ("<a1>", Category.PatchAck),
       ("git-send-email-p", Category.NotPatch)]) ∧
    (∃ m ∈ (mkPatchSet (getCategory cNoDiff) [msgE4, msgAck4, msgP4]).thread,
      categoryIn m.category ackKinds = true ∧
      m.in_reply_to = some "git-send-email-p") ∧
    ((findReply (mkPatchSet (getCategory cNoDiff) [msgE4, msgAck4, msgP4]).thread
          "git-send-email-p").map (fun q => categoryIn q.category parentKinds) =
      some false) := by decide

/-- C4 (amended): after reclassification, every non-epoch ack/nak/applied
message whose truthy reply pointer resolves (first match) to a message
occurring *earlier in the thread* has a parent whose final category is
PatchCoverLetter or PatchN.  (The order restriction is forced: the parent
lookup observes the in-place mutation, so an ack processed before its
parent sees the parent's pre-demotion category.) -/
theorem C4_amended (c : SimpleClassifier) (t : List Message) (e m q : Message)
    (i j : Nat) (r : String)
    (he : (mkPatchSet (getCategory c) t).epochPatch = some e)
    (hi : (mkPatchSet (getCategory c) t).thread.get? i = some m)
    (hack : categoryIn m.category ackKinds = true)
    (hne : m.message_id ≠ e.message_id)
    (hr : m.in_reply_to = some r)
    (htr : strTruthy m.in_reply_to = true)
    (hfind : findIdxFrom (fun x => x.message_id == r)
        (mkPatchSet (getCategory c) t).thread = some j)
    (hj : j < i)
    (hq : (mkPatchSet (getCategory c) t).thread.get? j = some q) :
    categoryIn q.category parentKinds = true := by
  have hfresh := localPass_fresh (getCategory c) (getCategory_setCat c) t
  have hneb : (m.message_id == e.message_id) = false := by simp [hne]
  exact mkFromLocal_ack_parent (getCategory c) (localPass (getCategory c) t)
    hfresh e m q i j r he hi hack hneb hr htr hfind hj hq

/-- C4 (witness): the amended theorem applied to a thread whose ack follows
its parent. -/
theorem C4_witness :
    (mkPatchSet (getCategory cNoDiff) [msgEw, msgPw, msgAckW]).thread.get? 0 =
      some (setCat msgEw Category.PatchN) ∧
    categoryIn (setCat msgEw Category.PatchN).category parentKinds = true :=
  ⟨by decide,
   C4_amended cNoDiff [msgEw, msgPw, msgAckW] (setCat msgEw Category.PatchN)
     (setCat msgAckW Category.PatchAck) (setCat msgEw Category.PatchN) 2 0
     "git-send-email-w0" (by decide) (by decide) (by decide) (by decide) (by decide)
     (by decide) (by decide) (by decide) (by decide)⟩

/-! ## Claim C6 -/

/-- C6 at the level of `mkFromLocal`. -/
theorem mkFromLocal_epoch_spec (γ : Message → Category) (l : List Message)
    (hfresh : ∀ m ∈ l, m.category = γ m) :
    ((mkFromLocal γ l).epochPatch = none → (mkFromLocal γ l).thread = l) ∧
    (∀ e, (mkFromLocal γ l).epochPatch = some e →
      e ∈ (mkFromLocal γ l).thread ∧
      ((∃ m ∈ (mkFromLocal γ l).thread, m.category = Category.PatchCoverLetter) →
        e.category = Category.PatchCoverLetter ∧
        ∀ m ∈ (mkFromLocal γ l).thread, m.category = Category.PatchCoverLetter →
          e.timestamp ≤ m.timestamp) ∧
      ((∀ m ∈ (mkFromLocal γ l).thread, m.category ≠ Category.PatchCoverLetter) →
        e.category = Category.PatchN ∧
        ∀ m ∈ (mkFromLocal γ l).thread, m.category = Category.PatchN →
          e.timestamp ≤ m.timestamp)) := by
  rcases h1 : (filterThread l Category.PatchCoverLetter).head? with _ | e0
  · rcases h2 : (sortBy (fun p => p.2.timestamp) (idxFilter Category.PatchN l 0)).head? with _ | p
    · -- no epoch: the structural pass does not run
      constructor
      · intro _
        simp only [mkFromLocal, h1, h2]
      · intro e he
        simp only [mkFromLocal, h1, h2, PatchSet.epochPatch] at he
        exact absurd he (by simp)
    · -- epoch from the earliest PatchN
      have hpmem : p ∈ idxFilter Category.PatchN l 0 := by
        have := List.mem_of_mem_head? (l := sortBy (fun p => p.2.timestamp)
          (idxFilter Category.PatchN l 0)) (by rw [h2]; rfl)
        exact (mem_sortBy _ p _).1 this
      have hp2 := idxFilter_mem Category.PatchN l 0 p hpmem
      have hrel := structGo_stepRel γ p.2.message_id l [] hfresh
      constructor
      · intro he
        simp only [mkFromLocal, h1, h2, PatchSet.epochPatch] at he
        exact absurd he (by simp)
      · intro e he
        simp only [mkFromLocal, h1, h2, PatchSet.epochPatch] at he
        cases Option.some.inj he
        simp only [mkFromLocal, h1, h2]
        refine ⟨?_, ?_, ?_⟩
        · exact structGo_epochId_mem γ p.2.message_id l [] p.2 hp2.1 (by simp)
        · -- a cover letter in the final thread would mean one in the local
          -- thread, contradicting the empty cover-letter filter
          intro hex
          exfalso
          rcases hex with ⟨m, hm, hcl⟩
          rcases forall₂_mem_right hrel m hm with ⟨a, ha, harel⟩
          have hacl : a.category = Category.PatchCoverLetter := harel.2.1.1 hcl
          have hmemf : a ∈ filterThread l Category.PatchCoverLetter :=
            (mem_filterThread l _ a).2 ⟨ha, hacl⟩
          rw [List.head?_eq_none_iff.1 h1] at hmemf
          cases hmemf
        · intro _
          refine ⟨hp2.2, ?_⟩
          intro m hm hcat
          rcases forall₂_mem_right hrel m hm with ⟨a, ha, harel⟩
          have hacat : a.category = Category.PatchN := harel.2.2 hcat
          have hts : m.timestamp = a.timestamp := by rw [harel.1]; rfl
          rcases idxFilter_complete Category.PatchN l 0 a ha hacat with ⟨ia, hia⟩
          have hmem2 : (ia, a) ∈ sortBy (fun p => p.2.timestamp)
              (idxFilter Category.PatchN l 0) := (mem_sortBy _ _ _).2 hia
          have := sortBy_head_min (fun p => p.2.timestamp) _ p h2 (ia, a) hia
          rw [hts]
          exact this
  · -- epoch from the earliest cover letter
    have he0 := (mem_filterThread l Category.PatchCoverLetter e0).1
      (List.mem_of_mem_head? (by rw [h1]; rfl))
    have hrel := structGo_stepRel γ e0.message_id l [] hfresh
    constructor
    · intro he
      simp only [mkFromLocal, h1, PatchSet.epochPatch] at he
      exact absurd he (by simp)
    · intro e he
      simp only [mkFromLocal, h1, PatchSet.epochPatch] at he
      cases Option.some.inj he
      simp only [mkFromLocal, h1]
      refine ⟨?_, ?_, ?_⟩
      · exact structGo_epochId_mem γ e0.message_id l [] e0 he0.1 (by simp)
      · intro _
        refine ⟨he0.2, ?_⟩
        intro m hm hcl
        rcases forall₂_mem_right hrel m hm with ⟨a, ha, harel⟩
        have hacl : a.category = Category.PatchCoverLetter := harel.2.1.1 hcl
        have hts : m.timestamp = a.timestamp := by rw [harel.1]; rfl
        rw [hts]
        exact filterThread_head_min l Category.PatchCoverLetter e0 h1 a ha hacl
      · intro hno
        exfalso
        have hemem := structGo_epochId_mem γ e0.message_id l [] e0 he0.1 (by simp)
        exact hno e0 hemem he0.2

/-- C6: `epoch_patch` is either absent — in which case the structural pass
does not run and every message keeps its local category — or a member of
the final thread which is the earliest cover letter when the thread has
one, and otherwise the earliest PatchN message (its final category is
PatchCoverLetter respectively PatchN, and its timestamp is minimal among
messages of that category). -/
theorem C6_epoch_spec (c : SimpleClassifier) (t : List Message) :
    ((mkPatchSet (getCategory c) t).epochPatch = none →
      (mkPatchSet (getCategory c) t).thread = localPass (getCategory c) t) ∧
    (∀ e, (mkPatchSet (getCategory c) t).epochPatch = some e →
      e ∈ (mkPatchSet (getCategory c) t).thread ∧
      ((∃ m ∈ (mkPatchSet (getCategory c) t).thread,
          m.category = Category.PatchCoverLetter) →
        e.category = Category.PatchCoverLetter ∧
        ∀ m ∈ (mkPatchSet (getCategory c) t).thread,
          m.category = Category.PatchCoverLetter → e.timestamp ≤ m.timestamp) ∧
      ((∀ m ∈ (mkPatchSet (getCategory c) t).thread,
          m.category ≠ Category.PatchCoverLetter) →
        e.category = Category.PatchN ∧
        ∀ m ∈ (mkPatchSet (getCategory c) t).thread,
          m.category = Category.PatchN → e.timestamp ≤ m.timestamp)) :=
  mkFromLocal_epoch_spec (getCategory c) (localPass (getCategory c) t)
    (localPass_fresh (getCategory c) (getCategory_setCat c) t)

/-- C6 (witness): at the two-patch thread the epoch is the earliest PatchN
message, a member of the final thread with category PatchN. -/
theorem C6_witness :
    (setCat msgEw Category.PatchN) ∈
      (mkPatchSet (getCategory cNoDiff) [msgEw, msgPw]).thread ∧
    (setCat msgEw Category.PatchN).category = Category.PatchN :=
  ⟨((C6_epoch_spec cNoDiff [msgEw, msgPw]).2 (setCat msgEw Category.PatchN)
      (by decide)).1,
   (((C6_epoch_spec cNoDiff [msgEw, msgPw]).2 (setCat msgEw Category.PatchN)
      (by decide)).2.2 (by decide)).1⟩

/-! ## Claim C8 -/

/-- With pairwise distinct message ids (the data model declares
`message_id` globally unique) the dict build is the identity. -/
theorem foldl_insertMsgDict (input : List Message) :
    ∀ acc : List Message, ((acc ++ input).map Message.message_id).Nodup →
      input.foldl insertMsgDict acc = acc ++ input := by
  induction input with
  | nil => intro acc _; simp
  | cons m rest ih =>
      intro acc hnd
      have hnotin : ¬ (acc.any (fun x => x.message_id == m.message_id)) = true := by
        intro hany
        rw [List.any_eq_true] at hany
        obtain ⟨x, hx, hxid⟩ := hany
        rw [List.map_append] at hnd
        rcases List.nodup_append.1 hnd with ⟨_, _, hdisj⟩
        exact hdisj (List.mem_map_of_mem Message.message_id hx)
          (by rw [eq_of_beq hxid]; simp)
      have hins : insertMsgDict acc m = acc ++ [m] := by
        rw [insertMsgDict, if_neg hnotin]
      show (m :: rest).foldl insertMsgDict acc = acc ++ m :: rest
      rw [List.foldl_cons, hins, ih (acc ++ [m]) (by simpa using hnd)]
      simp

theorem messageMapList_eq (input : List Message)
    (h : (input.map Message.message_id).Nodup) :
    messageMapList input = input := by
  have := foldl_insertMsgDict input [] (by simpa using h)
  simpa [messageMapList] using this

/-- Two filters of the same list related by member-wise inclusion are
sublists. -/
theorem filter_sublist_of_memsub {L : List Message} {p q : Message → Bool}
    (h : ∀ x, x ∈ L.filter p → x ∈ L.filter q) :
    List.Sublist (L.filter p) (L.filter q) := by
  have hq' : L.filter q = L.filter (fun x => p x || q x) := by
    apply List.filter_congr
    intro x hx
    by_cases hp : p x = true
    · have := h x (List.mem_filter.2 ⟨hx, hp⟩)
      rw [hp, (List.mem_filter.1 this).2]
      rfl
    · rw [Bool.not_eq_true] at hp
      rw [hp, Bool.false_or]
  rw [hq']
  exact List.monotone_filter_right L (fun a ha => by rw [ha, Bool.true_or])

theorem subset_compStep {L s : List Message} (hsub : ∀ x ∈ s, x ∈ L) :
    ∀ x ∈ s, x ∈ compStep L s := by
  intro x hx
  rw [compStep, List.mem_filter]
  refine ⟨hsub x hx, ?_⟩
  rw [Bool.or_eq_true]
  left
  rw [idMem, List.any_eq_true]
  exact ⟨x, hx, by simp⟩

theorem compStep_fix_propagate (L : List Message) :
    ∀ (n : Nat) (s : List Message), compStep L s = s → compIter L n s = s := by
  intro n
  induction n with
  | zero => intro s _; rfl
  | succ k ih => intro s h; rw [compIter, h, ih s h]

theorem compIter_fix_or_grow (L : List Message) :
    ∀ (n : Nat) (s : List Message), (∃ p, s = L.filter p) →
      compStep L (compIter L n s) = compIter L n s ∨
        s.length + n ≤ (compIter L n s).length := by
  intro n
  induction n with
  | zero => intro s _; right; exact Nat.le_refl _
  | succ k ih =>
      intro s hfil
      by_cases heq : compStep L s = s
      · left
        rw [compIter, heq, compStep_fix_propagate L k s heq, heq]
      · have hsubL : ∀ x ∈ s, x ∈ L := by
          obtain ⟨p, hp⟩ := hfil
          intro x hx
          rw [hp] at hx
          exact (List.mem_filter.1 hx).1
        have hsl : List.Sublist s (compStep L s) := by
          obtain ⟨p, hp⟩ := hfil
          subst hp
          exact filter_sublist_of_memsub (fun x hx => subset_compStep hsubL x hx)
        have hlt : s.length < (compStep L s).length := by
          rcases Nat.lt_or_ge s.length (compStep L s).length with h | h
          · exact h
          · exact absurd (hsl.eq_of_length (Nat.le_antisymm hsl.length_le h)) (fun hh => heq hh.symm)
        rcases ih (compStep L s) ⟨_, rfl⟩ with h | h
        · left
          rw [compIter]
          exact h
        · right
          rw [compIter]
          omega

theorem compIter_isFilter (L : List Message) :
    ∀ (n : Nat) (s : List Message), (∃ p, s = L.filter p) →
      ∃ p, compIter L n s = L.filter p := by
  intro n
  induction n with
  | zero => intro s h; exact h
  | succ k ih => intro s _; exact ih (compStep L s) ⟨_, rfl⟩

/-- After `L.length` closure steps the component is a fixpoint of
`compStep`. -/
theorem comp_fixpoint (L : List Message) (m : Message) (hm : m ∈ L) :
    compStep L (comp L m) = comp L m := by
  rcases compIter_fix_or_grow L L.length
      (L.filter (fun x => x.message_id == m.message_id)) ⟨_, rfl⟩ with h | h
  · exact h
  · exfalso
    have h1 : 1 ≤ (L.filter (fun x => x.message_id == m.message_id)).length := by
      have : m ∈ L.filter (fun x => x.message_id == m.message_id) :=
        List.mem_filter.2 ⟨hm, by simp⟩
      exact List.length_pos.2 (List.ne_nil_of_mem this)
    have hle : (compIter L L.length
        (L.filter (fun x => x.message_id == m.message_id))).length ≤ L.length := by
      obtain ⟨p, hp⟩ := compIter_isFilter L L.length
        (L.filter (fun x => x.message_id == m.message_id)) ⟨_, rfl⟩
      rw [hp]
      exact (List.filter_sublist L).length_le
    omega

theorem compIter_supset (L : List Message) :
    ∀ (n : Nat) (s : List Message), (∀ x ∈ s, x ∈ L) → ∀ x ∈ s, x ∈ compIter L n s := by
  intro n
  induction n with
  | zero => intro s _ x hx; exact hx
  | succ k ih =>
      intro s hsub x hx
      rw [compIter]
      exact ih (compStep L s) (fun y hy => (List.mem_filter.1 hy).1) x
        (subset_compStep hsub x hx)

theorem comp_isFilter (L : List Message) (m : Message) :
    ∃ p, comp L m = L.filter p :=
  compIter_isFilter L L.length
    (L.filter (fun x => x.message_id == m.message_id)) ⟨_, rfl⟩

theorem comp_subset_L (L : List Message) (m : Message) : ∀ x ∈ comp L m, x ∈ L := by
  intro x hx
  obtain ⟨p, hp⟩ := comp_isFilter L m
  rw [hp] at hx
  exact (List.mem_filter.1 hx).1

theorem comp_mem_self (L : List Message) (m : Message) (hm : m ∈ L) : m ∈ comp L m :=
  compIter_supset L L.length (L.filter (fun x => x.message_id == m.message_id))
    (fun x hx => (List.mem_filter.1 hx).1) m (List.mem_filter.2 ⟨hm, by simp⟩)

/-- The component is closed under adjacency. -/
theorem comp_closed (L : List Message) (m : Message) (hm : m ∈ L)
    (y : Message) (hy : y ∈ comp L m) (x : Message) (hx : x ∈ L)
    (hadj : adjB y x = true) : x ∈ comp L m := by
  rw [← comp_fixpoint L m hm, compStep, List.mem_filter]
  refine ⟨hx, ?_⟩
  rw [Bool.or_eq_true]
  right
  rw [List.any_eq_true]
  exact ⟨y, hy, hadj⟩

/-- Any adjacency-closed predicate that holds on the seed propagates to the
whole component (message ids assumed pairwise distinct). -/
theorem comp_subset_closed (L : List Message)
    (hL : (L.map Message.message_id).Nodup) (m : Message) (P : Message → Prop)
    (hclosed : ∀ y, P y → y ∈ L → ∀ x ∈ L, adjB y x = true → P x)
    (hbase : ∀ x ∈ L, x.message_id = m.message_id → P x) :
    ∀ x ∈ comp L m, P x := by
  have hstep : ∀ s : List Message, (∀ x ∈ s, x ∈ L) → (∀ x ∈ s, P x) →
      ∀ x ∈ compStep L s, P x := by
    intro s hsub hP x hx
    rw [compStep, List.mem_filter] at hx
    obtain ⟨hxL, hor⟩ := hx
    rw [Bool.or_eq_true] at hor
    rcases hor with hid | hadj
    · rw [idMem, List.any_eq_true] at hid
      obtain ⟨y, hy, hyid⟩ := hid
      have hxy : y = x :=
        List.inj_on_of_nodup_map hL (hsub y hy) hxL (eq_of_beq hyid)
      exact hxy ▸ hP y hy
    · rw [List.any_eq_true] at hadj
      obtain ⟨y, hy, hadj⟩ := hadj
      exact hclosed y (hP y hy) (hsub y hy) x hxL hadj
  have hiter : ∀ (n : Nat) (s : List Message), (∀ x ∈ s, x ∈ L) → (∀ x ∈ s, P x) →
      ∀ x ∈ compIter L n s, P x := by
    intro n
    induction n with
    | zero => intro s _ hP; exact hP
    | succ k ih =>
        intro s hsub hP
        rw [compIter]
        exact ih (compStep L s) (fun y hy => (List.mem_filter.1 hy).1) (hstep s hsub hP)
  refine hiter L.length _ (fun x hx => (List.mem_filter.1 hx).1) ?_
  intro x hx
  rcases List.mem_filter.1 hx with ⟨hxL, hxid⟩
  exact hbase x hxL (eq_of_beq hxid)

theorem adjB_comm (a b : Message) : adjB a b = adjB b a := by
  rw [adjB, adjB, Bool.or_comm]

/-- Transitivity: the component of a member of `comp L a` is contained in
`comp L a`. -/
theorem comp_trans (L : List Message) (hL : (L.map Message.message_id).Nodup)
    (a b : Message) (ha : a ∈ L) (hb : b ∈ comp L a) :
    ∀ x ∈ comp L b, x ∈ comp L a := by
  refine comp_subset_closed L hL b (fun x => x ∈ comp L a) ?_ ?_
  · intro y hy hyL x hx hadj
    exact comp_closed L a ha y hy x hx hadj
  · intro x hx hxid
    have hbL : b ∈ L := comp_subset_L L a b hb
    have : x = b := List.inj_on_of_nodup_map hL hx hbL hxid
    exact this ▸ hb

/-- Symmetry of component membership. -/
theorem comp_symm (L : List Message) (hL : (L.map Message.message_id).Nodup)
    (a b : Message) (ha : a ∈ L) (hb : b ∈ comp L a) : a ∈ comp L b := by
  have := comp_subset_closed L hL a (fun y => a ∈ comp L y) ?_ ?_ b hb
  · exact this
  · intro y hy hyL x hx hadj
    have hyx : y ∈ comp L x :=
      comp_closed L x hx x (comp_mem_self L x hx) y hyL (by rw [adjB_comm]; exact hadj)
    exact comp_trans L hL x y hx hyx a hy
  · intro x hx hxid
    have : x = a := List.inj_on_of_nodup_map hL hx ha hxid
    exact this ▸ comp_mem_self L a ha

theorem filter_eq_of_mem_iff {L : List Message} {p q : Message → Bool}
    (h : ∀ x, x ∈ L.filter p ↔ x ∈ L.filter q) : L.filter p = L.filter q := by
  apply List.filter_congr
  intro x hx
  rcases hp : p x with _ | _
  · rcases hq : q x with _ | _
    · rfl
    · have : x ∈ L.filter p := (h x).2 (List.mem_filter.2 ⟨hx, hq⟩)
      rw [List.mem_filter, hp] at this
      cases this.2
  · have : x ∈ L.filter q := (h x).1 (List.mem_filter.2 ⟨hx, hp⟩)
    rw [List.mem_filter] at this
    rw [this.2]

/-- Members of a component generate the same component. -/
theorem comp_congr (L : List Message) (hL : (L.map Message.message_id).Nodup)
    (a b : Message) (ha : a ∈ L) (hb : b ∈ comp L a) :
    comp L b = comp L a := by
  have hbL : b ∈ L := comp_subset_L L a b hb
  obtain ⟨p, hp⟩ := comp_isFilter L b
  obtain ⟨q, hq⟩ := comp_isFilter L a
  rw [hp, hq]
  apply filter_eq_of_mem_iff
  intro x
  rw [← hp, ← hq]
  constructor
  · intro hx
    exact comp_trans L hL a b ha hb x hx
  · intro hx
    have hab : a ∈ comp L b := comp_symm L hL a b ha hb
    exact comp_trans L hL b a hbL hab x hx

/-- Every node's component has a head which is a canonical representative
generating the same component. -/
theorem comp_rep_exists (L : List Message) (hL : (L.map Message.message_id).Nodup)
    (m : Message) (hm : m ∈ L) :
    ∃ rep, (comp L m).head? = some rep ∧ rep ∈ compReps L ∧ comp L rep = comp L m := by
  rcases hc : comp L m with _ | ⟨rep, rest⟩
  · exact absurd (comp_mem_self L m hm) (by rw [hc]; simp)
  · have hrepmem : rep ∈ comp L m := by rw [hc]; exact List.mem_cons_self _ _
    have hcongr : comp L rep = comp L m := comp_congr L hL m rep hm hrepmem
    refine ⟨rep, rfl, ?_, hcongr.trans hc⟩
    rw [compReps, List.mem_filter]
    refine ⟨comp_subset_L L m rep hrepmem, ?_⟩
    rw [hcongr.trans hc]
    simp

/-- C8: with pairwise distinct message ids (the data model declares
`message_id` globally unique), thread building partitions its input — every
message lies in exactly one produced thread, every thread member comes from
the input, distinct produced threads are disjoint — and every produced
thread is sorted by timestamp ascending. -/
theorem C8_partition (input : List Message)
    (hid : (input.map Message.message_id).Nodup) :
    (∀ m ∈ input, ∃! T, T ∈ allThreads input ∧ m ∈ T) ∧
    (∀ T ∈ allThreads input, ∀ m ∈ T, m ∈ input) ∧
    (∀ T₁ ∈ allThreads input, ∀ T₂ ∈ allThreads input,
      ∀ m, m ∈ T₁ → m ∈ T₂ → T₁ = T₂) ∧
    (∀ T ∈ allThreads input, T.Pairwise (fun a b => a.timestamp ≤ b.timestamp)) := by
  have hMM : messageMapList input = input := messageMapList_eq input hid
  have hallT : allThreads input =
      (compReps input).map (fun r => sortByTs (comp input r)) := by
    simp only [allThreads, hMM]
  have hunion : ∀ T ∈ allThreads input, ∀ m ∈ T, m ∈ input := by
    intro T hT m hm
    rw [hallT] at hT
    obtain ⟨r, _, rfl⟩ := List.mem_map.1 hT
    exact comp_subset_L input r m ((mem_sortBy _ _ _).1 hm)
  have hexu : ∀ m ∈ input, ∃! T, T ∈ allThreads input ∧ m ∈ T := by
    intro m hm
    obtain ⟨rep, hhead, hreps, hcongr⟩ := comp_rep_exists input hid m hm
    refine ⟨sortByTs (comp input rep), ⟨?_, ?_⟩, ?_⟩
    · rw [hallT]
      exact List.mem_map_of_mem _ hreps
    · rw [hcongr]
      exact (mem_sortBy _ _ _).2 (comp_mem_self input m hm)
    · rintro T' ⟨hT', hmT'⟩
      rw [hallT] at hT'
      obtain ⟨r', hr', rfl⟩ := List.mem_map.1 hT'
      have hm' : m ∈ comp input r' := (mem_sortBy _ _ _).1 hmT'
      rw [compReps, List.mem_filter] at hr'
      obtain ⟨hr'L, hr'head⟩ := hr'
      have hcongr' : comp input m = comp input r' :=
        comp_congr input hid r' m hr'L hm'
      have h1 : (comp input r').head? = some r' := eq_of_beq hr'head
      have h2 : (comp input r').head? = some rep := by
        rw [← hcongr']
        exact hhead
      rw [h1] at h2
      rw [Option.some.inj h2]
  refine ⟨hexu, hunion, ?_, ?_⟩
  · intro T₁ h₁ T₂ h₂ m hm₁ hm₂
    obtain ⟨T, _, huniq⟩ := hexu m (hunion T₁ h₁ m hm₁)
    rw [huniq T₁ ⟨h₁, hm₁⟩, huniq T₂ ⟨h₂, hm₂⟩]
  · intro T hT
    rw [hallT] at hT
    obtain ⟨r, _, rfl⟩ := List.mem_map.1 hT
    exact pairwise_sortBy Message.timestamp _

/-- C8 (witness): in a concrete four-message box, the reply-linked message
lies in exactly one produced thread. -/
theorem C8_witness :
    ∃! T, T ∈ allThreads [msgT1, msgT2, msgT3, msgT4] ∧ msgT2 ∈ T :=
  (C8_partition [msgT1, msgT2, msgT3, msgT4] (by decide)).1 msgT2 (by decide)

end MLCheck
